import Mathlib

/-!
# DartBoard — verification of the weighted-sampling engine

Shallow embedding of `dartboard.py` (class `DartBoard`): input validation,
probability normalization, weight-group construction, the two-tier selection
table, and both draw methods.  Numbers are embedded as `ℤ`, probabilities as
exact rationals `ℚ`.  The Python standard-library `random` module is modelled
as a deterministic pseudo-random stream over a `ℕ` state: seeding produces a
state and each `randrange` call advances it; only determinism and the range of
the produced values matter for the properties proved here, not the concrete
generator.  Fallible Python code (raised exceptions) is embedded with
`Except DBError`.
-/

/-- The exceptions the engine (or the standard library underneath it) can
raise during construction or drawing. -/
inductive DBError : Type
  /-- `ValueError` from `_checkInput`: the number at the second position is a
  duplicate of the number at the first position. -/
  | duplicate (first second : ℕ)
  /-- `ValueError` from `_checkInput`: the probability at this position is 1.0
  or more. -/
  | invalidProb (pos : ℕ)
  /-- `ValueError` raised by `min()` applied to an empty sequence, in
  `_normalizeProbabilities`. -/
  | minEmptySeq
  /-- `ZeroDivisionError` from `1.0 / self.min_prob` when the minimum
  probability is zero. -/
  | zeroDivision
  /-- `ValueError` raised by `random.randrange(n)` for an empty range. -/
  | emptyRange
  /-- `IndexError` from an out-of-bounds sequence subscript. -/
  | indexError
  /-- `ValueError` raised by `random.choices` when the total of the weights is
  not greater than zero. -/
  | nonPositiveTotal
deriving DecidableEq, Repr

/-- An input entry: a `(number, probability)` pair. -/
abbrev Entry : Type := ℤ × ℚ

/-- Python `int()` applied to a rational: truncation toward zero. -/
def pyInt (q : ℚ) : ℤ := if 0 ≤ q then ⌊q⌋ else -⌊-q⌋

/-- Round a rational to the nearest integer, ties to the even integer — the
rounding used by Python's built-in `round`. -/
def roundHalfEven (q : ℚ) : ℤ :=
  let f : ℤ := ⌊q⌋
  if q - f < 1 / 2 then f
  else if 1 / 2 < q - f then f + 1
  else if f % 2 = 0 then f else f + 1

/-- Python `round(q, d)`: round to `d` decimal digits, ties to even. -/
def roundTo (d : ℕ) (q : ℚ) : ℚ := (roundHalfEven (q * 10 ^ d) : ℚ) / 10 ^ d

/-- The decimal-digit count used by `_normalizeProbabilities`:
`3 if population_size < 1000 else 2 if population_size < 100000 else 1`. -/
def rounderOf (populationSize : ℕ) : ℕ :=
  if populationSize < 1000 then 3 else if populationSize < 100000 then 2 else 1

/-- Python `min` over a list, which raises `ValueError` on an empty list. -/
def listMin : List ℚ → Except DBError ℚ
  | [] => .error .minEmptySeq
  | p :: rest => .ok (rest.foldl min p)

/-- Lookup in the position dictionary of `_checkInput` (an association list
from number to the position at which it was first seen). -/
def lookupPos (n : ℤ) : List (ℤ × ℕ) → Option ℕ
  | [] => none
  | (m, j) :: rest => if n = m then some j else lookupPos n rest

/-- The duplicate-detection loop of `_checkInput`: walk the numbers keeping a
dictionary from number to its first position; on a hit, raise reporting the
stored position and the current position. -/
def dupScan (seen : List (ℤ × ℕ)) (i : ℕ) : List ℤ → Except DBError Unit
  | [] => .ok ()
  | n :: rest =>
    match lookupPos n seen with
    | some j => .error (.duplicate j i)
    | none => dupScan ((n, i) :: seen) (i + 1) rest

/-- The probability loop of `_checkInput`: raise at the first position whose
probability is `≥ 1.0`. -/
def probScan (i : ℕ) : List ℚ → Except DBError Unit
  | [] => .ok ()
  | p :: rest => if 1 ≤ p then .error (.invalidProb i) else probScan (i + 1) rest

/-- `_checkInput`: verify no duplicate number, then all probabilities `< 1.0`. -/
def checkInput (numbers : List ℤ) (probs : List ℚ) : Except DBError Unit :=
  match dupScan [] 0 numbers with
  | .error e => .error e
  | .ok () => probScan 0 probs

/-- The lexicographic order on `(probability, number)` pairs used by Python's
`list.sort` on the zipped pairs. -/
def pairLe (a b : ℚ × ℤ) : Prop := a.1 < b.1 ∨ (a.1 = b.1 ∧ a.2 ≤ b.2)

instance : DecidableRel pairLe := fun a b => by unfold pairLe; infer_instance

instance : IsTotal (ℚ × ℤ) pairLe :=
  ⟨fun a b => by
    unfold pairLe
    rcases lt_trichotomy a.1 b.1 with h | h | h
    · exact Or.inl (Or.inl h)
    · rcases le_total a.2 b.2 with h2 | h2
      · exact Or.inl (Or.inr ⟨h, h2⟩)
      · exact Or.inr (Or.inr ⟨h.symm, h2⟩)
    · exact Or.inr (Or.inl h)⟩

instance : IsTrans (ℚ × ℤ) pairLe :=
  ⟨fun a b c hab hbc => by
    unfold pairLe at *
    rcases hab with h1 | ⟨h1, h1'⟩ <;> rcases hbc with h2 | ⟨h2, h2'⟩
    · exact Or.inl (h1.trans h2)
    · exact Or.inl (h2 ▸ h1)
    · exact Or.inl (h1 ▸ h2)
    · exact Or.inr ⟨h1.trans h2, h1'.trans h2'⟩⟩

/-- `prob_nums.sort()`: a stable sort of the `(probability, number)` pairs in
lexicographic order (embedded as an insertion sort, which is stable and agrees
extensionally with any stable sort). -/
def sortPairs (l : List (ℚ × ℤ)) : List (ℚ × ℤ) := List.insertionSort pairLe l

/-- `_normalizeProbabilities`: find the minimum probability, divide every
probability by it, round to `rounderOf` decimals, pair with the numbers and
sort.  The empty population surfaces the `min()` fault; a zero minimum
surfaces the `ZeroDivisionError` from `1.0 / min_prob`. -/
def normalizeProbabilities (numbers : List ℤ) (probs : List ℚ) :
    Except DBError (List (ℚ × ℤ)) :=
  match listMin probs with
  | .error e => .error e
  | .ok m =>
    if m = 0 then .error .zeroDivision
    else
      let normalizer : ℚ := 1 / m
      let rounder : ℕ := rounderOf numbers.length
      .ok (sortPairs ((probs.map fun p => roundTo rounder (p * normalizer)).zip numbers))

/-- The loop of `_createWeightGroups`, with its mutable state
(`weight_groups` accumulator, current `group`, `previous` weight initialised
to the sentinel `-1`) made explicit.  Returns the final state. -/
def wgLoop (prev : ℚ) (group : List ℤ) (acc : List (ℚ × List ℤ)) :
    List (ℚ × ℤ) → List (ℚ × List ℤ) × List ℤ × ℚ
  | [] => (acc, group, prev)
  | (p, n) :: rest =>
    if p ≠ prev then
      wgLoop p [n] (if prev ≠ -1 then acc ++ [(prev, group)] else acc) rest
    else
      wgLoop prev (group ++ [n]) acc rest

/-- `_createWeightGroups`: group the sorted `(weight, number)` pairs into
contiguous runs of equal weight, then flush the final group if non-empty. -/
def createWeightGroups (pairs : List (ℚ × ℤ)) : List (ℚ × List ℤ) :=
  match wgLoop (-1) [] [] pairs with
  | (acc, group, prev) => if group ≠ [] then acc ++ [(prev, group)] else acc

/-- The replica count `w = int(p * nums_len)` of `_createSelectionTable`. -/
def replicasOf (p : ℚ) (nums : List ℤ) : ℤ := pyInt (p * nums.length)

/-- `_createSelectionTable`: each weight group `(p, nums)` contributes
`int(p * len(nums))` copies of `(len(nums), nums)` to the flat table. -/
def createSelectionTable (groups : List (ℚ × List ℤ)) : List (ℕ × List ℤ) :=
  groups.flatMap fun g => List.replicate (replicasOf g.1 g.2).toNat (g.2.length, g.2)

/-- The state of a two-tier `DartBoard` instance after construction. -/
structure DartBoard : Type where
  numbers : List ℤ
  probabilities : List ℚ
  population_size : ℕ
  tier_one_size : ℕ
  weight_groups : List (ℚ × List ℤ)
  selection_table : List (ℕ × List ℤ)
  selection_table_len : ℕ
deriving DecidableEq, Repr

/-- A constructed engine: either the two-tier instance, or the `simple`
instance which keeps the private numbers list and the raw weights. -/
inductive Board : Type
  | twoTier (b : DartBoard)
  | simple (numbers : List ℤ) (weights : List ℚ)
deriving DecidableEq, Repr

/-- `DartBoard.__init__` minus the seeding side effect: split the entries into
numbers and probabilities; `'simple'` takes the unvalidated branch, any other
method string takes the two-tier branch (validate, normalize, group, build the
table). -/
def mkDartBoard (entries : List Entry) (get_method : String) : Except DBError Board :=
  let numbers : List ℤ := entries.map Prod.fst
  let probs : List ℚ := entries.map Prod.snd
  if get_method = "simple" then
    .ok (.simple numbers probs)
  else
    match checkInput numbers probs with
    | .error e => .error e
    | .ok () =>
      match normalizeProbabilities numbers probs with
      | .error e => .error e
      | .ok sp =>
        let groups := createWeightGroups sp
        let table := createSelectionTable groups
        .ok (.twoTier
          { numbers := sp.map Prod.snd
            probabilities := sp.map Prod.fst
            population_size := numbers.length
            tier_one_size := groups.length
            weight_groups := groups
            selection_table := table
            selection_table_len := table.length })

/-- The deterministic model of the `random` module's generator state. -/
abbrev RngState : Type := ℕ

/-- One step of the modelled generator (a linear congruential recurrence;
stands in for the Mersenne Twister, of which only determinism is used). -/
def rngNext (s : RngState) : ℕ := (s * 1103515245 + 12345) % 2 ^ 31

/-- `random.seed(seed)`: the seed determines the initial generator state. -/
def seedRng : Option ℤ → RngState
  | none => 5489
  | some z => z.natAbs % 2 ^ 31

/-- `random.randrange(n)`: raises `ValueError` on an empty range, otherwise
returns a value in `[0, n)` and the advanced state. -/
def randrange (n : ℕ) (s : RngState) : Except DBError (ℕ × RngState) :=
  if n = 0 then .error .emptyRange else .ok (rngNext s % n, rngNext s)

/-- `_getNumberTwoTier`: draw an index into the selection table; if the
group's size is 1 return its sole number, otherwise draw a second index inside
the group. -/
def getNumberTwoTier (b : DartBoard) (s : RngState) : Except DBError (ℤ × RngState) :=
  match randrange b.selection_table_len s with
  | .error e => .error e
  | .ok (rand, s1) =>
    match b.selection_table[rand]? with
    | none => .error .indexError
    | some (nums_len, nums) =>
      if nums_len = 1 then
        match nums[0]? with
        | none => .error .indexError
        | some v => .ok (v, s1)
      else
        match randrange nums_len s1 with
        | .error e => .error e
        | .ok (rand2, s2) =>
          match nums[rand2]? with
          | none => .error .indexError
          | some v => .ok (v, s2)

/-- `itertools.accumulate` over the weights: the cumulative sums. -/
def cumSums (ws : List ℚ) : List ℚ := (ws.scanl (· + ·) 0).tail

/-- `_getNumberSimple`, i.e. `random.choices(numbers, weights, k=1)[0]`:
form the cumulative weights, reject a non-positive total, draw a uniform
rational in `[0, 1)`, scale by the total and locate it in the cumulative list
(`bisect` with high bound `len - 1`), then index the numbers. -/
def getNumberSimple (numbers : List ℤ) (weights : List ℚ) (s : RngState) :
    Except DBError (ℤ × RngState) :=
  let cum := cumSums weights
  match cum.getLast? with
  | none => .error .indexError
  | some total =>
    if total ≤ 0 then .error .nonPositiveTotal
    else
      match randrange (2 ^ 53) s with
      | .error e => .error e
      | .ok (r, s1) =>
        let target : ℚ := (r : ℚ) / 2 ^ 53 * total
        let idx : ℕ := (cum.take (numbers.length - 1)).countP fun c => decide (c ≤ target)
        match numbers[idx]? with
        | none => .error .indexError
        | some v => .ok (v, s1)

/-- `getNumber`: dispatch on the variant installed at construction time. -/
def Board.draw : Board → RngState → Except DBError (ℤ × RngState)
  | .twoTier b, s => getNumberTwoTier b s
  | .simple numbers weights, s => getNumberSimple numbers weights s

/-- A sequence of `k` consecutive draws, threading the generator state. -/
def drawSeq (b : Board) (s : RngState) : ℕ → Except DBError (List ℤ)
  | 0 => .ok []
  | k + 1 =>
    match b.draw s with
    | .error e => .error e
    | .ok (v, s') =>
      match drawSeq b s' k with
      | .error e => .error e
      | .ok rest => .ok (v :: rest)

/-- A full constructed run: `DartBoard(entries, seed=seed, get_method=m)`.
`random.seed` is called during `__init__`; the board state itself is computed
from the entries alone. -/
def mkDartBoardSeeded (entries : List Entry) (seed : Option ℤ) (get_method : String) :
    Except DBError (Board × RngState) :=
  match mkDartBoard entries get_method with
  | .error e => .error e
  | .ok b => .ok (b, seedRng seed)

/-! ## Basic facts about the arithmetic helpers -/

theorem roundHalfEven_ge_floor (q : ℚ) : (⌊q⌋ : ℤ) ≤ roundHalfEven q := by
  unfold roundHalfEven
  dsimp only
  split
  · exact le_refl _
  · split
    · omega
    · split <;> omega

theorem roundTo_ge_one {d : ℕ} {q : ℚ} (h : 1 ≤ q) : 1 ≤ roundTo d q := by
  unfold roundTo
  have hpow : (0 : ℚ) < 10 ^ d := by positivity
  rw [le_div_iff₀ hpow, one_mul]
  have h1 : ((10 : ℚ) ^ d) ≤ q * 10 ^ d := by
    calc ((10 : ℚ) ^ d) = 1 * 10 ^ d := (one_mul _).symm
    _ ≤ q * 10 ^ d := by
      apply mul_le_mul_of_nonneg_right h (le_of_lt hpow)
  have h2 : ((10 : ℤ) ^ d : ℤ) ≤ ⌊q * 10 ^ d⌋ := by
    apply Int.le_floor.mpr
    push_cast
    exact h1
  have h3 := roundHalfEven_ge_floor (q * 10 ^ d)
  have h4 : ((10 : ℤ) ^ d : ℤ) ≤ roundHalfEven (q * 10 ^ d) := le_trans h2 h3
  calc ((10 : ℚ) ^ d) = ((10 ^ d : ℤ) : ℚ) := by push_cast; ring
  _ ≤ ((roundHalfEven (q * 10 ^ d) : ℤ) : ℚ) := by exact_mod_cast h4

theorem roundHalfEven_intCast (z : ℤ) : roundHalfEven (z : ℚ) = z := by
  unfold roundHalfEven
  dsimp only
  rw [Int.floor_intCast]
  have h0 : (z : ℚ) - (z : ℚ) = 0 := by ring
  rw [h0]
  norm_num

theorem roundTo_one (d : ℕ) : roundTo d (1 : ℚ) = 1 := by
  unfold roundTo
  have hpow : (0 : ℚ) < 10 ^ d := by positivity
  have harg : (1 : ℚ) * 10 ^ d = (((10 : ℤ) ^ d : ℤ) : ℚ) := by push_cast; ring
  rw [harg, roundHalfEven_intCast]
  rw [div_eq_one_iff_eq (ne_of_gt hpow)]
  push_cast; ring

/-- Python `min` over a non-empty list returns an element of the list. -/
theorem foldl_min_mem (p : ℚ) (l : List ℚ) : l.foldl min p ∈ p :: l := by
  induction l generalizing p with
  | nil => simp
  | cons q rest ih =>
    rw [List.foldl_cons]
    rcases List.mem_cons.mp (ih (min p q)) with h | h
    · rcases min_choice p q with hm | hm
      · rw [h, hm]; exact List.mem_cons_self _ _
      · rw [h, hm]; exact List.mem_cons.mpr (Or.inr (List.mem_cons_self _ _))
    · exact List.mem_cons.mpr (Or.inr (List.mem_cons.mpr (Or.inr h)))

/-- Python `min` over a non-empty list is a lower bound of the list. -/
theorem foldl_min_le_mem (p : ℚ) (l : List ℚ) : ∀ x ∈ p :: l, l.foldl min p ≤ x := by
  induction l generalizing p with
  | nil =>
    intro x hx
    rw [List.mem_singleton] at hx
    rw [hx]
    exact le_refl _
  | cons q rest ih =>
    intro x hx
    rw [List.foldl_cons]
    have hbase : List.foldl min (min p q) rest ≤ min p q :=
      ih (min p q) (min p q) (List.mem_cons_self _ _)
    rcases List.mem_cons.mp hx with hx | hx
    · rw [hx]
      exact le_trans hbase (min_le_left _ _)
    · rcases List.mem_cons.mp hx with hx | hx
      · rw [hx]
        exact le_trans hbase (min_le_right _ _)
      · exact ih (min p q) x (List.mem_cons.mpr (Or.inr hx))

theorem listMin_spec {probs : List ℚ} {m : ℚ} (h : listMin probs = .ok m) :
    m ∈ probs ∧ ∀ q ∈ probs, m ≤ q := by
  match probs, h with
  | p :: rest, h =>
    have hm : rest.foldl min p = m := by
      simpa [listMin] using h
    subst hm
    exact ⟨foldl_min_mem p rest, foldl_min_le_mem p rest⟩

/-! ## The weight-group loop: accumulator normal form and run lemmas -/

/-- The loop of `_createWeightGroups` run from an empty accumulator, followed
by the final flush of the pending group. -/
def wgFlush (prev : ℚ) (group : List ℤ) (l : List (ℚ × ℤ)) : List (ℚ × List ℤ) :=
  match wgLoop prev group [] l with
  | (acc, g, pr) => if g ≠ [] then acc ++ [(pr, g)] else acc

theorem wgLoop_acc (l : List (ℚ × ℤ)) :
    ∀ prev group acc, wgLoop prev group acc l =
      (acc ++ (wgLoop prev group [] l).1, (wgLoop prev group [] l).2.1,
        (wgLoop prev group [] l).2.2) := by
  induction l with
  | nil => intro prev group acc; simp [wgLoop]
  | cons x rest ih =>
    intro prev group acc
    obtain ⟨p, n⟩ := x
    by_cases hp : p = prev
    · subst hp
      have hne : ¬(p ≠ p) := fun h => h rfl
      simp only [wgLoop, if_neg hne]
      exact ih p (group ++ [n]) acc
    · by_cases hprev : prev = -1
      · subst hprev
        have hne : ¬((-1 : ℚ) ≠ -1) := fun h => h rfl
        simp only [wgLoop, if_pos hp, if_neg hne]
        exact ih p [n] acc
      · simp only [wgLoop, if_pos hp, if_pos hprev, List.nil_append]
        rw [ih p [n] (acc ++ [(prev, group)]), ih p [n] [(prev, group)]]
        simp [List.append_assoc]

theorem createWeightGroups_eq_wgFlush (l : List (ℚ × ℤ)) :
    createWeightGroups l = wgFlush (-1) [] l := rfl

theorem wgFlush_nil (prev : ℚ) (group : List ℤ) :
    wgFlush prev group [] = if group ≠ [] then [(prev, group)] else [] := by
  simp [wgFlush, wgLoop]

theorem wgFlush_cons_eq (prev : ℚ) (group : List ℤ) (n : ℤ) (rest : List (ℚ × ℤ)) :
    wgFlush prev group ((prev, n) :: rest) = wgFlush prev (group ++ [n]) rest := by
  have hne : ¬(prev ≠ prev) := fun h => h rfl
  simp only [wgFlush, wgLoop, if_neg hne]

theorem wgFlush_cons_ne (prev : ℚ) (group : List ℤ) (p : ℚ) (n : ℤ)
    (rest : List (ℚ × ℤ)) (hp : p ≠ prev) (hprev : prev ≠ -1) :
    wgFlush prev group ((p, n) :: rest) = (prev, group) :: wgFlush p [n] rest := by
  simp only [wgFlush, wgLoop, if_pos hp, if_pos hprev, List.nil_append]
  rw [wgLoop_acc rest p [n] [(prev, group)]]
  match hw : wgLoop p [n] [] rest with
  | (acc, g, pr) =>
    by_cases hg : g = []
    · subst hg
      simp
    · simp [hg]

theorem wgFlush_cons_sentinel (group : List ℤ) (p : ℚ) (n : ℤ)
    (rest : List (ℚ × ℤ)) (hp : p ≠ -1) :
    wgFlush (-1) group ((p, n) :: rest) = wgFlush p [n] rest := by
  have hne : ¬((-1 : ℚ) ≠ -1) := fun h => h rfl
  simp only [wgFlush, wgLoop, if_pos hp, if_neg hne]

/-- Flatten a weight-group list back into `(weight, number)` pairs. -/
def unfoldGroups (gs : List (ℚ × List ℤ)) : List (ℚ × ℤ) :=
  gs.flatMap fun g => g.2.map fun v => (g.1, v)

theorem wgFlush_unfold (l : List (ℚ × ℤ)) :
    ∀ prev group, prev ≠ -1 → group ≠ [] → (∀ x ∈ l, x.1 ≠ -1) →
      unfoldGroups (wgFlush prev group l) = group.map (fun v => (prev, v)) ++ l := by
  induction l with
  | nil =>
    intro prev group _ hg _
    rw [wgFlush_nil, if_pos hg]
    simp [unfoldGroups]
  | cons x rest ih =>
    intro prev group hprev hg hl
    obtain ⟨p, n⟩ := x
    by_cases hp : p = prev
    · subst hp
      rw [wgFlush_cons_eq, ih p (group ++ [n]) hprev (by simp)
        (fun x hx => hl x (List.mem_cons.mpr (Or.inr hx)))]
      simp
    · have hpne : p ≠ -1 := hl (p, n) (List.mem_cons_self _ _)
      rw [wgFlush_cons_ne prev group p n rest hp hprev]
      have ihr := ih p [n] hpne (by simp)
        (fun x hx => hl x (List.mem_cons.mpr (Or.inr hx)))
      simp only [unfoldGroups, List.flatMap_cons] at *
      rw [ihr]
      simp

theorem wgFlush_nonempty (l : List (ℚ × ℤ)) :
    ∀ prev group, group ≠ [] → ∀ g ∈ wgFlush prev group l, g.2 ≠ [] := by
  induction l with
  | nil =>
    intro prev group hg g hmem
    rw [wgFlush_nil, if_pos hg] at hmem
    rw [List.mem_singleton] at hmem
    subst hmem
    exact hg
  | cons x rest ih =>
    intro prev group hg g hmem
    obtain ⟨p, n⟩ := x
    by_cases hp : p = prev
    · subst hp
      rw [wgFlush_cons_eq] at hmem
      exact ih p (group ++ [n]) (by simp) g hmem
    · by_cases hprev : prev = -1
      · subst hprev
        rw [wgFlush_cons_sentinel group p n rest hp] at hmem
        exact ih p [n] (by simp) g hmem
      · rw [wgFlush_cons_ne prev group p n rest hp hprev] at hmem
        rcases List.mem_cons.mp hmem with hmem | hmem
        · subst hmem; exact hg
        · exact ih p [n] (by simp) g hmem

theorem wgFlush_weights (l : List (ℚ × ℤ)) :
    ∀ prev group, ∀ g ∈ wgFlush prev group l, g.1 = prev ∨ g.1 ∈ l.map Prod.fst := by
  induction l with
  | nil =>
    intro prev group g hmem
    rw [wgFlush_nil] at hmem
    by_cases hg : group = []
    · simp [hg] at hmem
    · rw [if_pos hg] at hmem
      rw [List.mem_singleton] at hmem
      subst hmem
      exact Or.inl rfl
  | cons x rest ih =>
    intro prev group g hmem
    obtain ⟨p, n⟩ := x
    by_cases hp : p = prev
    · subst hp
      rw [wgFlush_cons_eq] at hmem
      rcases ih p (group ++ [n]) g hmem with h | h
      · exact Or.inl h
      · exact Or.inr (List.mem_cons.mpr (Or.inr h))
    · by_cases hprev : prev = -1
      · subst hprev
        rw [wgFlush_cons_sentinel group p n rest hp] at hmem
        rcases ih p [n] g hmem with h | h
        · exact Or.inr (by simp [h])
        · exact Or.inr (List.mem_cons.mpr (Or.inr h))
      · rw [wgFlush_cons_ne prev group p n rest hp hprev] at hmem
        rcases List.mem_cons.mp hmem with hmem | hmem
        · subst hmem; exact Or.inl rfl
        · rcases ih p [n] g hmem with h | h
          · exact Or.inr (by simp [h])
          · exact Or.inr (List.mem_cons.mpr (Or.inr h))

theorem wgFlush_sorted (l : List (ℚ × ℤ)) :
    ∀ prev group, prev ≠ -1 → (∀ x ∈ l, x.1 ≠ -1) →
      (∀ x ∈ l, prev ≤ x.1) → List.Pairwise (fun a b => a.1 ≤ b.1) l →
      ((wgFlush prev group l).map Prod.fst).Sorted (· < ·) := by
  induction l with
  | nil =>
    intro prev group _ _ _ _
    rw [wgFlush_nil]
    by_cases hg : group = [] <;> simp [hg]
  | cons x rest ih =>
    intro prev group hprev hl hge hpw
    obtain ⟨p, n⟩ := x
    have hlr : ∀ x ∈ rest, x.1 ≠ -1 := fun x hx => hl x (List.mem_cons.mpr (Or.inr hx))
    have hger : ∀ x ∈ rest, p ≤ x.1 := by
      intro x hx
      exact (List.pairwise_cons.mp hpw).1 x hx
    have hpwr : List.Pairwise (fun a b => a.1 ≤ b.1) rest := (List.pairwise_cons.mp hpw).2
    by_cases hp : p = prev
    · subst hp
      rw [wgFlush_cons_eq]
      exact ih p (group ++ [n]) hprev hlr hger hpwr
    · have hpne : p ≠ -1 := hl (p, n) (List.mem_cons_self _ _)
      have hplt : prev < p :=
        lt_of_le_of_ne (hge (p, n) (List.mem_cons_self _ _)) (Ne.symm hp)
      rw [wgFlush_cons_ne prev group p n rest hp hprev]
      rw [List.map_cons, List.sorted_cons]
      constructor
      · intro w hw
        rw [List.mem_map] at hw
        obtain ⟨g, hg, hgw⟩ := hw
        rcases wgFlush_weights rest p [n] g hg with h | h
        · rw [← hgw, h]; exact hplt
        · rw [List.mem_map] at h
          obtain ⟨y, hy, hyw⟩ := h
          rw [← hgw, ← hyw]
          exact lt_of_lt_of_le hplt (hger y hy)
      · exact ih p [n] hpne hlr hger hpwr

theorem wgFlush_const (l : List (ℚ × ℤ)) :
    ∀ prev group, prev ≠ -1 → group ≠ [] → (∀ x ∈ l, x.1 = prev) →
      wgFlush prev group l = [(prev, group ++ l.map Prod.snd)] := by
  induction l with
  | nil =>
    intro prev group _ hg _
    rw [wgFlush_nil, if_pos hg]
    simp
  | cons x rest ih =>
    intro prev group hprev hg hl
    obtain ⟨p, n⟩ := x
    have hp : p = prev := hl (p, n) (List.mem_cons_self _ _)
    subst hp
    rw [wgFlush_cons_eq, ih p (group ++ [n]) hprev (by simp)
      (fun x hx => hl x (List.mem_cons.mpr (Or.inr hx)))]
    simp

/-! ## Inversion of the construction pipeline -/

theorem normalizeProbabilities_inv {numbers : List ℤ} {probs : List ℚ}
    {sp : List (ℚ × ℤ)} (h : normalizeProbabilities numbers probs = .ok sp) :
    ∃ mn, listMin probs = .ok mn ∧ mn ≠ 0 ∧
      sp = sortPairs ((probs.map fun p =>
        roundTo (rounderOf numbers.length) (p * (1 / mn))).zip numbers) := by
  unfold normalizeProbabilities at h
  cases hmin : listMin probs with
  | error e => rw [hmin] at h; simp at h
  | ok mn =>
    rw [hmin] at h
    dsimp only at h
    by_cases hz : mn = 0
    · rw [if_pos hz] at h; simp at h
    · rw [if_neg hz] at h
      simp only [Except.ok.injEq] at h
      exact ⟨mn, rfl, hz, h.symm⟩

theorem mkDartBoard_twoTier_inv {entries : List Entry} {m : String} {b : DartBoard}
    (hm : m ≠ "simple") (h : mkDartBoard entries m = .ok (.twoTier b)) :
    checkInput (entries.map Prod.fst) (entries.map Prod.snd) = .ok () ∧
    ∃ sp, normalizeProbabilities (entries.map Prod.fst) (entries.map Prod.snd) = .ok sp ∧
      b.numbers = sp.map Prod.snd ∧
      b.probabilities = sp.map Prod.fst ∧
      b.population_size = entries.length ∧
      b.tier_one_size = (createWeightGroups sp).length ∧
      b.weight_groups = createWeightGroups sp ∧
      b.selection_table = createSelectionTable (createWeightGroups sp) ∧
      b.selection_table_len = (createSelectionTable (createWeightGroups sp)).length := by
  unfold mkDartBoard at h
  rw [if_neg hm] at h
  cases hci : checkInput (entries.map Prod.fst) (entries.map Prod.snd) with
  | error e => rw [hci] at h; simp at h
  | ok u =>
    obtain rfl : u = () := rfl
    rw [hci] at h
    cases hnp : normalizeProbabilities (entries.map Prod.fst) (entries.map Prod.snd) with
    | error e => rw [hnp] at h; simp at h
    | ok sp =>
      rw [hnp] at h
      simp only [Except.ok.injEq, Board.twoTier.injEq] at h
      refine ⟨rfl, sp, rfl, ?_⟩
      rw [← h]
      simp

/-- The sorted pair list is a permutation of the zipped rounded pairs. -/
theorem sortPairs_perm (l : List (ℚ × ℤ)) : (sortPairs l).Perm l :=
  List.perm_insertionSort pairLe l

theorem sortPairs_sorted (l : List (ℚ × ℤ)) : (sortPairs l).Sorted pairLe :=
  List.sorted_insertionSort pairLe l

theorem sorted_pairLe_fst {l : List (ℚ × ℤ)} (h : l.Sorted pairLe) :
    List.Pairwise (fun a b : ℚ × ℤ => a.1 ≤ b.1) l := by
  refine h.imp ?_
  intro a b hab
  rcases hab with hab | ⟨hab, _⟩
  · exact le_of_lt hab
  · exact le_of_eq hab

/-- With positive probabilities, every rounded normalized weight is ≥ 1. -/
theorem normalized_weights_ge_one {numbers : List ℤ} {probs : List ℚ}
    {sp : List (ℚ × ℤ)} (hpos : ∀ p ∈ probs, 0 < p)
    (h : normalizeProbabilities numbers probs = .ok sp) :
    ∀ x ∈ sp, 1 ≤ x.1 := by
  obtain ⟨mn, hmin, hz, hsp⟩ := normalizeProbabilities_inv h
  obtain ⟨hmem, hle⟩ := listMin_spec hmin
  have hmpos : 0 < mn := hpos mn hmem
  intro x hx
  rw [hsp] at hx
  have hx' := (sortPairs_perm _).mem_iff.mp hx
  have h1 := (List.of_mem_zip hx').1
  rw [List.mem_map] at h1
  obtain ⟨p, hp, hpx⟩ := h1
  rw [← hpx]
  apply roundTo_ge_one
  rw [one_div, ← div_eq_mul_inv, le_div_iff₀ hmpos, one_mul]
  exact hle p hp

/-! ## Group and table facts for a two-tier construction -/

theorem zip_map_fst_snd (l : List (ℚ × ℤ)) :
    (l.map Prod.fst).zip (l.map Prod.snd) = l := by
  induction l with
  | nil => rfl
  | cons x rest ih => simp [ih]

/-- Group structure of a two-tier construction whose probabilities are all
positive: groups cover the sorted pairs exactly, are non-empty, carry weights
`≥ 1`, and appear in strictly ascending weight order. -/
theorem twoTier_groups_spec {entries : List Entry} {m : String} {b : DartBoard}
    (hm : m ≠ "simple") (hpos : ∀ p ∈ entries.map Prod.snd, 0 < p)
    (h : mkDartBoard entries m = .ok (.twoTier b)) :
    unfoldGroups b.weight_groups = b.probabilities.zip b.numbers ∧
    (b.probabilities.zip b.numbers).Sorted pairLe ∧
    (∀ g ∈ b.weight_groups, 1 ≤ g.1 ∧ g.2 ≠ []) ∧
    ((b.weight_groups.map Prod.fst).Sorted (· < ·)) ∧
    b.tier_one_size = b.weight_groups.length ∧
    (entries ≠ [] → b.weight_groups ≠ []) := by
  obtain ⟨hci, sp, hnp, hnums, hprobs, hpop, htier, hwg, htab, htablen⟩ :=
    mkDartBoard_twoTier_inv hm h
  have hge1 : ∀ x ∈ sp, 1 ≤ x.1 := normalized_weights_ge_one hpos hnp
  obtain ⟨mn, hmin, hz, hspdef⟩ := normalizeProbabilities_inv hnp
  have hsorted : sp.Sorted pairLe := hspdef ▸ sortPairs_sorted _
  have hzipsp : b.probabilities.zip b.numbers = sp := by
    rw [hnums, hprobs, zip_map_fst_snd]
  have hsent : ∀ x ∈ sp, x.1 ≠ (-1 : ℚ) := by
    intro x hx
    have := hge1 x hx
    intro hcon
    rw [hcon] at this
    norm_num at this
  have hfstle : List.Pairwise (fun a b : ℚ × ℤ => a.1 ≤ b.1) sp :=
    sorted_pairLe_fst hsorted
  rw [hwg, htier, hzipsp]
  match hspc : sp with
  | [] =>
    refine ⟨rfl, by simp, by simp [createWeightGroups, wgLoop], by simp [createWeightGroups, wgLoop], rfl, ?_⟩
    intro hne
    exfalso
    apply hne
    have h0 := congrArg List.length hspdef
    simp only [(sortPairs_perm _).length_eq, List.length_zip, List.length_map,
      Nat.min_self, List.length_nil] at h0
    exact List.length_eq_zero.mp h0.symm
  | (p, n) :: rest =>
    have hp1 : (1 : ℚ) ≤ p := hge1 (p, n) (List.mem_cons_self _ _)
    have hpne : p ≠ -1 := hsent (p, n) (List.mem_cons_self _ _)
    have hstart : createWeightGroups ((p, n) :: rest) = wgFlush p [n] rest := by
      rw [createWeightGroups_eq_wgFlush]
      exact wgFlush_cons_sentinel [] p n rest hpne
    have hrestne : ∀ x ∈ rest, x.1 ≠ (-1 : ℚ) :=
      fun x hx => hsent x (List.mem_cons.mpr (Or.inr hx))
    have hrestge : ∀ x ∈ rest, p ≤ x.1 := by
      intro x hx
      exact (List.pairwise_cons.mp hfstle).1 x hx
    have hrestpw : List.Pairwise (fun a b : ℚ × ℤ => a.1 ≤ b.1) rest :=
      (List.pairwise_cons.mp hfstle).2
    rw [hstart]
    refine ⟨?_, hsorted, ?_, ?_, rfl, fun _ => ?_⟩
    · rw [wgFlush_unfold rest p [n] hpne (by simp) hrestne]
      simp
    · intro g hg
      refine ⟨?_, wgFlush_nonempty rest p [n] (by simp) g hg⟩
      rcases wgFlush_weights rest p [n] g hg with hw | hw
      · rw [hw]; exact hp1
      · rw [List.mem_map] at hw
        obtain ⟨y, hy, hyw⟩ := hw
        rw [← hyw]
        exact hge1 y (List.mem_cons.mpr (Or.inr hy))
    · exact wgFlush_sorted rest p [n] hpne hrestne hrestge hrestpw
    · intro hcon
      have hu := wgFlush_unfold rest p [n] hpne (by simp) hrestne
      rw [hcon] at hu
      simp [unfoldGroups] at hu

theorem pyInt_eq_floor {q : ℚ} (h : 0 ≤ q) : pyInt q = ⌊q⌋ := by
  unfold pyInt
  rw [if_pos h]

theorem pyInt_ge_one {q : ℚ} (h : 1 ≤ q) : 1 ≤ pyInt q := by
  rw [pyInt_eq_floor (le_trans zero_le_one h)]
  exact Int.le_floor.mpr (by exact_mod_cast h)

theorem replicasOf_ge_one {p : ℚ} {nums : List ℤ} (hp : 1 ≤ p) (hn : nums ≠ []) :
    1 ≤ replicasOf p nums := by
  apply pyInt_ge_one
  have hlen : 1 ≤ (nums.length : ℚ) := by
    have := List.length_pos.mpr hn
    exact_mod_cast this
  calc (1 : ℚ) = 1 * 1 := (one_mul 1).symm
  _ ≤ p * nums.length := mul_le_mul hp hlen zero_le_one (le_trans zero_le_one hp)

theorem mem_createSelectionTable {gs : List (ℚ × List ℤ)} {e : ℕ × List ℤ} :
    e ∈ createSelectionTable gs ↔
      ∃ g ∈ gs, e = (g.2.length, g.2) ∧ (replicasOf g.1 g.2).toNat ≠ 0 := by
  unfold createSelectionTable
  rw [List.mem_flatMap]
  constructor
  · rintro ⟨g, hg, he⟩
    rw [List.mem_replicate] at he
    exact ⟨g, hg, he.2, he.1⟩
  · rintro ⟨g, hg, he, hr⟩
    exact ⟨g, hg, List.mem_replicate.mpr ⟨hr, he⟩⟩

theorem length_createSelectionTable (gs : List (ℚ × List ℤ)) :
    (createSelectionTable gs).length =
      (gs.map fun g => (replicasOf g.1 g.2).toNat).sum := by
  unfold createSelectionTable
  rw [List.length_flatMap]
  congr 1
  simp [Function.comp]

theorem createSelectionTable_ne_nil {gs : List (ℚ × List ℤ)} (hne : gs ≠ [])
    (hrep : ∀ g ∈ gs, 1 ≤ replicasOf g.1 g.2) :
    createSelectionTable gs ≠ [] := by
  match gs, hne with
  | g :: rest, _ =>
    unfold createSelectionTable
    rw [List.flatMap_cons]
    intro hcon
    rcases List.append_eq_nil.mp hcon with ⟨h1, _⟩
    rw [List.replicate_eq_nil_iff] at h1
    have := hrep g (List.mem_cons_self _ _)
    omega

/-- Any number stored in a weight group of the loop's output comes from the
current group or from the remaining pairs (no `-1`-sentinel hypothesis: even a
dropped group only loses values, it never invents them). -/
theorem wgFlush_values (l : List (ℚ × ℤ)) :
    ∀ prev group, ∀ g ∈ wgFlush prev group l, ∀ v ∈ g.2,
      v ∈ group ∨ v ∈ l.map Prod.snd := by
  induction l with
  | nil =>
    intro prev group g hg v hv
    rw [wgFlush_nil] at hg
    by_cases hgr : group = []
    · simp [hgr] at hg
    · rw [if_pos hgr, List.mem_singleton] at hg
      subst hg
      exact Or.inl hv
  | cons x rest ih =>
    intro prev group g hg v hv
    obtain ⟨p, n⟩ := x
    by_cases hp : p = prev
    · subst hp
      rw [wgFlush_cons_eq] at hg
      rcases ih p (group ++ [n]) g hg v hv with h | h
      · rcases List.mem_append.mp h with h | h
        · exact Or.inl h
        · rw [List.mem_singleton] at h
          exact Or.inr (by simp [h])
      · exact Or.inr (List.mem_cons.mpr (Or.inr h))
    · by_cases hprev : prev = -1
      · subst hprev
        rw [wgFlush_cons_sentinel group p n rest hp] at hg
        rcases ih p [n] g hg v hv with h | h
        · rw [List.mem_singleton] at h
          exact Or.inr (by simp [h])
        · exact Or.inr (List.mem_cons.mpr (Or.inr h))
      · rw [wgFlush_cons_ne prev group p n rest hp hprev] at hg
        rcases List.mem_cons.mp hg with hg | hg
        · subst hg
          exact Or.inl hv
        · rcases ih p [n] g hg v hv with h | h
          · rw [List.mem_singleton] at h
            exact Or.inr (by simp [h])
          · exact Or.inr (List.mem_cons.mpr (Or.inr h))

/-- Every number stored in any weight group of a two-tier construction is one
of the population's numbers (no validity assumptions: construction success is
enough). -/
theorem twoTier_group_values_sub {entries : List Entry} {m : String} {b : DartBoard}
    (hm : m ≠ "simple") (h : mkDartBoard entries m = .ok (.twoTier b)) :
    ∀ g ∈ b.weight_groups, ∀ v ∈ g.2, v ∈ entries.map Prod.fst := by
  obtain ⟨hci, sp, hnp, hnums, hprobs, hpop, htier, hwg, htab, htablen⟩ :=
    mkDartBoard_twoTier_inv hm h
  obtain ⟨mn, hmin, hz, hspdef⟩ := normalizeProbabilities_inv hnp
  intro g hg v hv
  rw [hwg, createWeightGroups_eq_wgFlush] at hg
  rcases wgFlush_values sp (-1) [] g hg v hv with hcon | hmem
  · simp at hcon
  · rw [List.mem_map] at hmem
    obtain ⟨x, hx, hxv⟩ := hmem
    rw [hspdef] at hx
    have hx' := (sortPairs_perm _).mem_iff.mp hx
    have h2 := (List.of_mem_zip hx').2
    rw [← hxv]
    exact h2

/-! ## Draw lemmas -/

theorem randrange_ok {n : ℕ} (hn : n ≠ 0) (s : RngState) :
    randrange n s = .ok (rngNext s % n, rngNext s) ∧ rngNext s % n < n := by
  refine ⟨by simp [randrange, hn], Nat.mod_lt _ (Nat.pos_of_ne_zero hn)⟩

theorem getNumberTwoTier_mem {b : DartBoard} {s : RngState} {v : ℤ} {s' : RngState}
    (h : getNumberTwoTier b s = .ok (v, s')) :
    ∃ e ∈ b.selection_table, v ∈ e.2 := by
  unfold getNumberTwoTier at h
  cases hr : randrange b.selection_table_len s with
  | error e => rw [hr] at h; simp at h
  | ok rs =>
    obtain ⟨rand, s1⟩ := rs
    rw [hr] at h
    dsimp only at h
    cases hget : b.selection_table[rand]? with
    | none => rw [hget] at h; simp at h
    | some e =>
      obtain ⟨nums_len, nums⟩ := e
      have hmem : (nums_len, nums) ∈ b.selection_table := List.getElem?_mem hget
      rw [hget] at h
      dsimp only at h
      refine ⟨(nums_len, nums), hmem, ?_⟩
      by_cases h1 : nums_len = 1
      · rw [if_pos h1] at h
        cases h0 : nums[0]? with
        | none => rw [h0] at h; simp at h
        | some w =>
          rw [h0] at h
          simp only [Except.ok.injEq, Prod.mk.injEq] at h
          rw [← h.1]
          exact List.getElem?_mem h0
      · rw [if_neg h1] at h
        cases hr2 : randrange nums_len s1 with
        | error e => rw [hr2] at h; simp at h
        | ok rs2 =>
          obtain ⟨rand2, s2⟩ := rs2
          rw [hr2] at h
          dsimp only at h
          cases h0 : nums[rand2]? with
          | none => rw [h0] at h; simp at h
          | some w =>
            rw [h0] at h
            simp only [Except.ok.injEq, Prod.mk.injEq] at h
            rw [← h.1]
            exact List.getElem?_mem h0

theorem getNumberTwoTier_total {b : DartBoard}
    (hlen : b.selection_table_len = b.selection_table.length)
    (hne : b.selection_table ≠ [])
    (hent : ∀ e ∈ b.selection_table, e.1 = e.2.length ∧ e.2 ≠ []) :
    ∀ s, ∃ v s', getNumberTwoTier b s = .ok (v, s') := by
  intro s
  have hpos : b.selection_table_len ≠ 0 := by
    rw [hlen]
    intro hc
    exact hne (List.length_eq_zero.mp hc)
  obtain ⟨hr, hlt⟩ := randrange_ok hpos s
  have hlt' : rngNext s % b.selection_table_len < b.selection_table.length := hlen ▸ hlt
  unfold getNumberTwoTier
  rw [hr]
  dsimp only
  rw [List.getElem?_eq_getElem hlt']
  obtain ⟨h1, h2⟩ := hent _ (List.getElem_mem hlt')
  set e := b.selection_table[rngNext s % b.selection_table_len] with hedef
  obtain ⟨nums_len, nums⟩ := e
  dsimp only
  dsimp only at h1 h2
  have hnlen : nums_len = nums.length := h1
  by_cases hone : nums_len = 1
  · rw [if_pos hone]
    have h0 : 0 < nums.length := List.length_pos.mpr h2
    rw [List.getElem?_eq_getElem h0]
    exact ⟨nums[0], rngNext s, rfl⟩
  · rw [if_neg hone]
    have hnpos : nums_len ≠ 0 := by
      rw [hnlen]
      intro hc
      exact h2 (List.length_eq_zero.mp hc)
    obtain ⟨hr2, hlt2⟩ := randrange_ok hnpos (rngNext s)
    rw [hr2]
    dsimp only
    have hlt2' : rngNext (rngNext s) % nums_len < nums.length := hnlen ▸ hlt2
    rw [List.getElem?_eq_getElem hlt2']
    exact ⟨_, _, rfl⟩

theorem getNumberSimple_mem {numbers : List ℤ} {weights : List ℚ} {s : RngState}
    {v : ℤ} {s' : RngState} (h : getNumberSimple numbers weights s = .ok (v, s')) :
    v ∈ numbers := by
  unfold getNumberSimple at h
  dsimp only at h
  cases hlast : (cumSums weights).getLast? with
  | none => rw [hlast] at h; simp at h
  | some total =>
    rw [hlast] at h
    dsimp only at h
    by_cases htot : total ≤ 0
    · rw [if_pos htot] at h; simp at h
    · rw [if_neg htot] at h
      cases hr : randrange (2 ^ 53) s with
      | error e => rw [hr] at h; simp at h
      | ok rs =>
        obtain ⟨r, s1⟩ := rs
        rw [hr] at h
        dsimp only at h
        cases h0 : numbers[List.countP (fun c => decide (c ≤ (r : ℚ) / 2 ^ 53 * total))
            (List.take (numbers.length - 1) (cumSums weights))]? with
        | none => rw [h0] at h; simp at h
        | some w =>
          rw [h0] at h
          simp only [Except.ok.injEq, Prod.mk.injEq] at h
          rw [← h.1]
          exact List.getElem?_mem h0

/-! ## Characterisation of the validation scans -/

theorem dupScan_ok_iff (l : List ℤ) : ∀ seen i,
    dupScan seen i l = .ok () ↔ (l.Nodup ∧ ∀ n ∈ l, lookupPos n seen = none) := by
  induction l with
  | nil => intro seen i; simp [dupScan]
  | cons n rest ih =>
    intro seen i
    cases hl : lookupPos n seen with
    | some j =>
      simp only [dupScan, hl]
      constructor
      · intro h; exact Except.noConfusion h
      · rintro ⟨_, hall⟩
        have := hall n (List.mem_cons_self _ _)
        rw [hl] at this
        exact Option.noConfusion this
    | none =>
      simp only [dupScan, hl]
      rw [ih ((n, i) :: seen) (i + 1)]
      constructor
      · rintro ⟨hnd, hall⟩
        have hne : ∀ x ∈ rest, x ≠ n := by
          intro x hx hcon
          have := hall x hx
          rw [lookupPos, if_pos hcon] at this
          exact Option.noConfusion this
        refine ⟨List.nodup_cons.mpr ⟨fun hc => hne n hc rfl, hnd⟩, ?_⟩
        intro x hx
        rcases List.mem_cons.mp hx with hx | hx
        · rw [hx]; exact hl
        · have := hall x hx
          rw [lookupPos] at this
          by_cases hxn : x = n
          · exact absurd hxn (hne x hx)
          · rw [if_neg hxn] at this
            exact this
      · rintro ⟨hnd, hall⟩
        obtain ⟨hn, hnd'⟩ := List.nodup_cons.mp hnd
        refine ⟨hnd', ?_⟩
        intro x hx
        rw [lookupPos]
        have hxn : x ≠ n := fun hc => hn (hc ▸ hx)
        rw [if_neg hxn]
        exact hall x (List.mem_cons.mpr (Or.inr hx))

theorem dupScan_error_shape (l : List ℤ) : ∀ seen i e,
    dupScan seen i l = .error e → ∃ a b, e = .duplicate a b := by
  induction l with
  | nil => intro seen i e h; exact Except.noConfusion h
  | cons n rest ih =>
    intro seen i e h
    rw [dupScan] at h
    cases hl : lookupPos n seen with
    | some j =>
      rw [hl] at h
      injection h with h
      exact ⟨j, i, h.symm⟩
    | none =>
      rw [hl] at h
      exact ih _ _ _ h

theorem dupScan_error_spec (G : List ℤ) (l : List ℤ) : ∀ seen i, l = G.drop i →
    (∀ n j, lookupPos n seen = some j → j < i ∧ G[j]? = some n) →
    ∀ a b, dupScan seen i l = .error (.duplicate a b) →
      a < b ∧ ∃ n, G[a]? = some n ∧ G[b]? = some n := by
  induction l with
  | nil => intro seen i _ _ a b h; exact Except.noConfusion h
  | cons n rest ih =>
    intro seen i hdrop hinv a b h
    have hGi : G[i]? = some n := by
      have h0 : (G.drop i)[0]? = some n := by rw [← hdrop]; simp
      rw [List.getElem?_drop] at h0
      simpa using h0
    have hrest : rest = G.drop (i + 1) := by
      rw [← List.tail_drop, ← hdrop]
      rfl
    rw [dupScan] at h
    cases hl : lookupPos n seen with
    | some j =>
      rw [hl] at h
      injection h with h
      obtain ⟨hji, hGj⟩ := hinv n j hl
      obtain ⟨rfl, rfl⟩ : j = a ∧ i = b := by
        cases h
        exact ⟨rfl, rfl⟩
      exact ⟨hji, n, hGj, hGi⟩
    | none =>
      rw [hl] at h
      refine ih ((n, i) :: seen) (i + 1) hrest ?_ a b h
      intro x j hx
      rw [lookupPos] at hx
      by_cases hxn : x = n
      · rw [if_pos hxn] at hx
        injection hx with hx
        subst hx
        exact ⟨Nat.lt_succ_self i, hxn ▸ hGi⟩
      · rw [if_neg hxn] at hx
        obtain ⟨hji, hGj⟩ := hinv x j hx
        exact ⟨Nat.lt_succ_of_lt hji, hGj⟩

theorem probScan_ok_iff (l : List ℚ) : ∀ i,
    probScan i l = .ok () ↔ ∀ p ∈ l, p < 1 := by
  induction l with
  | nil => intro i; simp [probScan]
  | cons p rest ih =>
    intro i
    rw [probScan]
    by_cases hp : 1 ≤ p
    · rw [if_pos hp]
      constructor
      · intro h; exact Except.noConfusion h
      · intro h
        exact absurd (h p (List.mem_cons_self _ _)) (not_lt.mpr hp)
    · rw [if_neg hp, ih (i + 1)]
      constructor
      · intro h x hx
        rcases List.mem_cons.mp hx with hx | hx
        · rw [hx]; exact not_le.mp hp
        · exact h x hx
      · intro h x hx
        exact h x (List.mem_cons.mpr (Or.inr hx))

theorem probScan_error_spec (G : List ℚ) (l : List ℚ) : ∀ i, l = G.drop i →
    ∀ e, probScan i l = .error e →
      ∃ a p, e = .invalidProb a ∧ G[a]? = some p ∧ 1 ≤ p := by
  induction l with
  | nil => intro i _ e h; exact Except.noConfusion h
  | cons p rest ih =>
    intro i hdrop e h
    have hGi : G[i]? = some p := by
      have h0 : (G.drop i)[0]? = some p := by rw [← hdrop]; simp
      rw [List.getElem?_drop] at h0
      simpa using h0
    have hrest : rest = G.drop (i + 1) := by
      rw [← List.tail_drop, ← hdrop]
      rfl
    rw [probScan] at h
    by_cases hp : 1 ≤ p
    · rw [if_pos hp] at h
      injection h with h
      exact ⟨i, p, h.symm, hGi, hp⟩
    · rw [if_neg hp] at h
      exact ih (i + 1) hrest e h

theorem checkInput_ok_iff (numbers : List ℤ) (probs : List ℚ) :
    checkInput numbers probs = .ok () ↔ numbers.Nodup ∧ ∀ p ∈ probs, p < 1 := by
  unfold checkInput
  cases hd : dupScan [] 0 numbers with
  | error e =>
    have hnot : ¬ numbers.Nodup := by
      intro hnd
      have hok := (dupScan_ok_iff numbers [] 0).mpr ⟨hnd, fun n _ => rfl⟩
      rw [hd] at hok
      exact Except.noConfusion hok
    constructor
    · intro h; exact Except.noConfusion h
    · rintro ⟨hnd, _⟩; exact absurd hnd hnot
  | ok u =>
    obtain rfl : u = () := rfl
    have hnd : numbers.Nodup := ((dupScan_ok_iff numbers [] 0).mp hd).1
    rw [probScan_ok_iff]
    simp [hnd]

theorem mkDartBoard_checkInput_error {entries : List Entry} {m : String} {e : DBError}
    (hm : m ≠ "simple")
    (h : checkInput (entries.map Prod.fst) (entries.map Prod.snd) = .error e) :
    mkDartBoard entries m = .error e := by
  unfold mkDartBoard
  rw [if_neg hm, h]

theorem foldl_min_const (l : List ℚ) : ∀ p, (∀ x ∈ l, x = p) → l.foldl min p = p := by
  induction l with
  | nil => intro p _; rfl
  | cons q rest ih =>
    intro p hall
    have hq : q = p := hall q (List.mem_cons_self _ _)
    subst hq
    rw [List.foldl_cons, min_self]
    exact ih q fun x hx => hall x (List.mem_cons.mpr (Or.inr hx))

/-- A population whose probabilities are all equal to a positive constant has
a single weight group (of weight 1) and a selection table of exactly the
population's size. -/
theorem twoTier_uniform {entries : List Entry} {m : String} {b : DartBoard} {c : ℚ}
    (hm : m ≠ "simple") (hc : 0 < c) (hall : ∀ p ∈ entries.map Prod.snd, p = c)
    (hne : entries ≠ []) (h : mkDartBoard entries m = .ok (.twoTier b)) :
    b.tier_one_size = 1 ∧ b.selection_table_len = entries.length := by
  obtain ⟨hci, sp, hnp, hnums, hprobs, hpop, htier, hwg, htab, htablen⟩ :=
    mkDartBoard_twoTier_inv hm h
  obtain ⟨mn, hmin, hz, hspdef⟩ := normalizeProbabilities_inv hnp
  have hmn : mn = c := hall mn (listMin_spec hmin).1
  subst hmn
  have hsp1 : ∀ x ∈ sp, x.1 = 1 := by
    intro x hx
    rw [hspdef] at hx
    have hx' := (sortPairs_perm _).mem_iff.mp hx
    have h1 := (List.of_mem_zip hx').1
    rw [List.mem_map] at h1
    obtain ⟨p, hp, hpx⟩ := h1
    have hpc : p = mn := hall p hp
    rw [← hpx, hpc, ← div_eq_mul_one_div, div_self hz]
    exact roundTo_one _
  have hlen : sp.length = entries.length := by
    have h0 := congrArg List.length hspdef
    simp only [(sortPairs_perm _).length_eq, List.length_zip, List.length_map,
      Nat.min_self] at h0
    exact h0
  match hspc : sp, hlen with
  | [], hlen =>
    exfalso
    exact hne (List.length_eq_zero.mp hlen.symm)
  | (p, n) :: rest, hlen =>
    have hp1 : p = 1 := hsp1 (p, n) (List.mem_cons_self _ _)
    subst hp1
    have hgroups : createWeightGroups ((1, n) :: rest) = [(1, n :: rest.map Prod.snd)] := by
      rw [createWeightGroups_eq_wgFlush,
        wgFlush_cons_sentinel [] 1 n rest (by norm_num),
        wgFlush_const rest 1 [n] (by norm_num) (by simp)
          (fun x hx => hsp1 x (List.mem_cons.mpr (Or.inr hx)))]
      simp
    constructor
    · rw [htier, hgroups]
      rfl
    · rw [htablen, hgroups, length_createSelectionTable]
      have hvlen : (n :: rest.map Prod.snd).length = entries.length := by
        simp only [List.length_cons, List.length_map]
        simpa using hlen
      simp only [List.map_cons, List.map_nil, List.sum_cons, List.sum_nil]
      rw [replicasOf, pyInt_eq_floor (by positivity), hvlen, one_mul]
      rw [Int.floor_natCast]
      simp

/-! ## Concrete demonstration population (the spec's concrete scenario) -/

/-- The spec's example population `[(1, 0.25), (2, 0.50), (7, 0.25)]`. -/
def demoEntries : List Entry := [(1, 1/4), (2, 1/2), (7, 1/4)]

/-- The two-tier engine state built from `demoEntries`. -/
def demoBoard : DartBoard :=
  { numbers := [1, 7, 2], probabilities := [1, 1, 2], population_size := 3,
    tier_one_size := 2, weight_groups := [(1, [1, 7]), (2, [2])],
    selection_table := [(2, [1, 7]), (2, [1, 7]), (1, [2]), (1, [2])],
    selection_table_len := 4 }

theorem demoEntries_eval : mkDartBoard demoEntries "two-tier" = .ok (.twoTier demoBoard) := by
  have hs : ("two-tier" = "simple") = False := by decide
  norm_num [demoEntries, demoBoard, mkDartBoard, hs, checkInput, dupScan, probScan,
    lookupPos, normalizeProbabilities, listMin, rounderOf, sortPairs, List.insertionSort,
    List.orderedInsert, pairLe, roundTo, roundHalfEven, createWeightGroups, wgLoop,
    createSelectionTable, replicasOf, pyInt, List.replicate_succ]
  decide

theorem demoEntries_simple_eval :
    mkDartBoard demoEntries "simple" = .ok (.simple [1, 2, 7] [1/4, 1/2, 1/4]) := rfl

/-! ## The claims -/

/-- **C1.** For every population whose construction succeeds — under the
two-tier method or the simple method — every successful call to the installed
`getNumber` returns a value present in the original population supplied at
construction. -/
theorem C1_draw_in_population :
    (∀ (entries : List Entry) (m : String) (b : DartBoard) (s : RngState) (v : ℤ)
        (s' : RngState), m ≠ "simple" → mkDartBoard entries m = .ok (.twoTier b) →
        getNumberTwoTier b s = .ok (v, s') → v ∈ entries.map Prod.fst) ∧
    (∀ (entries : List Entry) (ns : List ℤ) (ws : List ℚ) (s : RngState) (v : ℤ)
        (s' : RngState), mkDartBoard entries "simple" = .ok (.simple ns ws) →
        getNumberSimple ns ws s = .ok (v, s') → v ∈ entries.map Prod.fst) := by
  constructor
  · intro entries m b s v s' hm hmk hdraw
    obtain ⟨e, he, hv⟩ := getNumberTwoTier_mem hdraw
    obtain ⟨hci, sp, hnp, hnums, hprobs, hpop, htier, hwg, htab, htablen⟩ :=
      mkDartBoard_twoTier_inv hm hmk
    rw [htab, mem_createSelectionTable] at he
    obtain ⟨g, hg, hge, _⟩ := he
    have hg' : g ∈ b.weight_groups := hwg ▸ hg
    apply twoTier_group_values_sub hm hmk g hg' v
    rw [hge] at hv
    exact hv
  · intro entries ns ws s v s' hmk hdraw
    have hns : ns = entries.map Prod.fst := by
      unfold mkDartBoard at hmk
      rw [if_pos rfl] at hmk
      simp only [Except.ok.injEq, Board.simple.injEq] at hmk
      exact hmk.1.symm
    rw [← hns] at *
    exact hns ▸ getNumberSimple_mem hdraw

/-- Witness for C1 at the spec's concrete scenario 1: drawing from
`[(1, 0.25), (2, 0.50), (7, 0.25)]` (both methods) lands in `{1, 2, 7}`. -/
theorem C1_draw_in_population_witness :
    (1 : ℤ) ∈ demoEntries.map Prod.fst ∧ (1 : ℤ) ∈ demoEntries.map Prod.fst :=
  ⟨C1_draw_in_population.1 demoEntries "two-tier" demoBoard 0 1 1406932606
      (by decide) demoEntries_eval rfl,
   C1_draw_in_population.2 demoEntries [1, 2, 7] [1/4, 1/2, 1/4] 42 1 1250496027
      demoEntries_simple_eval
      (by norm_num [getNumberSimple, cumSums, List.scanl, randrange, rngNext,
        List.countP, List.countP.go])⟩

/-- **C3.** Two constructed runs with identical entries, identical seed and
identical method agree on everything observable: the boards are equal (in
particular the selection tables coincide) and every draw sequence of any
length coincides. -/
theorem C3_reproducibility :
    ∀ (entries : List Entry) (seed : Option ℤ) (m : String) (b1 b2 : Board)
      (s1 s2 : RngState),
      mkDartBoardSeeded entries seed m = .ok (b1, s1) →
      mkDartBoardSeeded entries seed m = .ok (b2, s2) →
      b1 = b2 ∧ s1 = s2 ∧
      (∀ db1 db2, b1 = .twoTier db1 → b2 = .twoTier db2 →
        db1.selection_table = db2.selection_table) ∧
      ∀ k, drawSeq b1 s1 k = drawSeq b2 s2 k := by
  intro entries seed m b1 b2 s1 s2 h1 h2
  rw [h1] at h2
  simp only [Except.ok.injEq, Prod.mk.injEq] at h2
  obtain ⟨rfl, rfl⟩ := h2
  refine ⟨rfl, rfl, ?_, fun k => rfl⟩
  intro db1 db2 hd1 hd2
  rw [hd1] at hd2
  simp only [Board.twoTier.injEq] at hd2
  rw [hd2]

theorem mkDartBoardSeeded_demo_eval :
    mkDartBoardSeeded demoEntries (some 42) "two-tier" = .ok (.twoTier demoBoard, 42) := by
  unfold mkDartBoardSeeded
  rw [demoEntries_eval]
  rfl

/-- Witness for C3 at the spec's concrete scenario 2: the population
`[(1, 0.25), (2, 0.50), (7, 0.25)]` constructed twice with seed 42. -/
theorem C3_reproducibility_witness :
    Board.twoTier demoBoard = Board.twoTier demoBoard ∧ (42 : RngState) = 42 ∧
    (∀ db1 db2, Board.twoTier demoBoard = .twoTier db1 →
      Board.twoTier demoBoard = .twoTier db2 →
      db1.selection_table = db2.selection_table) ∧
    ∀ k, drawSeq (.twoTier demoBoard) 42 k = drawSeq (.twoTier demoBoard) 42 k :=
  C3_reproducibility demoEntries (some 42) "two-tier" (.twoTier demoBoard)
    (.twoTier demoBoard) 42 42 mkDartBoardSeeded_demo_eval mkDartBoardSeeded_demo_eval

/-- **C7 (counterexample).** The claim says the empty population is rejected
by an explicit, caught validation case.  In the code, `_checkInput` accepts
the empty input and construction instead fails with the `ValueError` that
`min()` raises on an empty sequence, propagating out of
`_normalizeProbabilities`. -/
theorem C7_counterexample :
    checkInput ([] : List ℤ) ([] : List ℚ) = .ok () ∧
    mkDartBoard ([] : List Entry) "two-tier" = .error DBError.minEmptySeq := by
  constructor
  · rfl
  · rfl

/-- **C7 (amended).** For the empty population, construction under any
non-simple method fails — but with the propagated `min()`-over-empty-sequence
fault from `_normalizeProbabilities`, not with an explicit validation error:
`_checkInput` accepts the empty input. -/
theorem C7_empty_population :
    ∀ m : String, m ≠ "simple" →
      checkInput ([] : List ℤ) ([] : List ℚ) = .ok () ∧
      mkDartBoard ([] : List Entry) m = .error DBError.minEmptySeq := by
  intro m hm
  refine ⟨rfl, ?_⟩
  unfold mkDartBoard
  rw [if_neg hm]
  rfl

/-- Witness for the amended C7 at the concrete method string `"two-tier"`. -/
theorem C7_empty_population_witness :
    checkInput ([] : List ℤ) ([] : List ℚ) = .ok () ∧
    mkDartBoard ([] : List Entry) "two-tier" = .error DBError.minEmptySeq :=
  C7_empty_population "two-tier" (by decide)

/-- **C8 (code bug).** The claim — and the repository's own
`test_invalid_method`, which expects a `ValueError` for the method
`'three-tier'` — says an unrecognized method selector fails construction.
The code instead treats every method other than `'simple'` as two-tier:
construction with `"three-tier"` succeeds and yields exactly the engine the
`"two-tier"` selector yields. -/
theorem C8_unrecognized_method_accepted :
    mkDartBoard demoEntries "three-tier" = mkDartBoard demoEntries "two-tier" ∧
    mkDartBoard demoEntries "three-tier" = .ok (.twoTier demoBoard) := by
  have h3 : mkDartBoard demoEntries "three-tier" = mkDartBoard demoEntries "two-tier" := by
    unfold mkDartBoard
    rw [if_neg (by decide : ¬("three-tier" = "simple")),
      if_neg (by decide : ¬("two-tier" = "simple"))]
  exact ⟨h3, h3.trans demoEntries_eval⟩

/-- **C2 (counterexample).** The claim asserts validation happens regardless
of the chosen method; but with `get_method='simple'`, `_checkInput` is never
called: a population with a duplicated value constructs successfully. -/
theorem C2_counterexample :
    ¬ (([((1 : ℤ), (1 : ℚ)/2), (1, 1/2)].map Prod.fst).Nodup) ∧
    mkDartBoard [((1 : ℤ), (1 : ℚ)/2), (1, 1/2)] "simple" =
      .ok (.simple [1, 1] [1/2, 1/2]) := by
  constructor
  · decide
  · rfl

/-- **C2 (amended).** For the two-tier path (any method other than
`'simple'`): duplicated values make construction fail with the duplicate
error carrying both offending positions, and — when the values are distinct —
a probability `≥ 1.0` makes construction fail with the invalid-probability
error carrying the offending position. -/
theorem C2_two_tier_validation :
    ∀ (entries : List Entry) (m : String), m ≠ "simple" →
      (¬ (entries.map Prod.fst).Nodup →
        ∃ (a b : ℕ) (n : ℤ), a < b ∧ (entries.map Prod.fst)[a]? = some n ∧
          (entries.map Prod.fst)[b]? = some n ∧
          mkDartBoard entries m = .error (.duplicate a b)) ∧
      ((entries.map Prod.fst).Nodup →
        ∀ (i : ℕ) (p : ℚ), (entries.map Prod.snd)[i]? = some p → 1 ≤ p →
        ∃ (a : ℕ) (q : ℚ), (entries.map Prod.snd)[a]? = some q ∧ 1 ≤ q ∧
          mkDartBoard entries m = .error (.invalidProb a)) := by
  intro entries m hm
  constructor
  · intro hnd
    cases hd : dupScan [] 0 (entries.map Prod.fst) with
    | ok u =>
      obtain rfl : u = () := rfl
      exact absurd ((dupScan_ok_iff _ [] 0).mp hd).1 hnd
    | error e =>
      obtain ⟨a, b, rfl⟩ := dupScan_error_shape _ [] 0 e hd
      obtain ⟨hab, n, ha, hb⟩ :=
        dupScan_error_spec (entries.map Prod.fst) (entries.map Prod.fst) [] 0
          (by simp) (by intro n j hcon; exact Option.noConfusion hcon) a b hd
      refine ⟨a, b, n, hab, ha, hb, ?_⟩
      apply mkDartBoard_checkInput_error hm
      unfold checkInput
      rw [hd]
  · intro hnd i p hip hp1
    have hdok : dupScan [] 0 (entries.map Prod.fst) = .ok () :=
      (dupScan_ok_iff _ [] 0).mpr ⟨hnd, fun n _ => rfl⟩
    cases hps : probScan 0 (entries.map Prod.snd) with
    | ok u =>
      obtain rfl : u = () := rfl
      have := (probScan_ok_iff _ 0).mp hps p (List.getElem?_mem hip)
      exact absurd this (not_lt.mpr hp1)
    | error e =>
      obtain ⟨a, q, rfl, ha, hq⟩ :=
        probScan_error_spec (entries.map Prod.snd) _ 0 (by simp) e hps
      refine ⟨a, q, ha, hq, ?_⟩
      apply mkDartBoard_checkInput_error hm
      unfold checkInput
      rw [hdok]
      exact hps

/-- Witness for the amended C2: the spec's concrete scenarios 3 and 4 —
`[(1, 0.5), (1, 0.5)]` fails with the duplicate error naming positions 0 and
1, and a probability of `1.5` fails with the invalid-probability error. -/
theorem C2_two_tier_validation_witness :
    (∃ (a b : ℕ) (n : ℤ), a < b ∧ (([((1 : ℤ), (1 : ℚ)/2), (1, 1/2)]).map Prod.fst)[a]? = some n ∧
      (([((1 : ℤ), (1 : ℚ)/2), (1, 1/2)]).map Prod.fst)[b]? = some n ∧
      mkDartBoard [((1 : ℤ), (1 : ℚ)/2), (1, 1/2)] "two-tier" = .error (.duplicate a b)) ∧
    (∃ (a : ℕ) (q : ℚ), (([((3 : ℤ), (1 : ℚ)/2), (4, 3/2)]).map Prod.snd)[a]? = some q ∧ 1 ≤ q ∧
      mkDartBoard [((3 : ℤ), (1 : ℚ)/2), (4, 3/2)] "two-tier" = .error (.invalidProb a)) :=
  ⟨(C2_two_tier_validation [((1 : ℤ), (1 : ℚ)/2), (1, 1/2)] "two-tier" (by decide)).1
      (by decide),
   (C2_two_tier_validation [((3 : ℤ), (1 : ℚ)/2), (4, 3/2)] "two-tier" (by decide)).2
      (by decide) 1 (3/2) rfl (by norm_num)⟩

/-- **C5.** For every two-tier construction over a population of size `N`,
the stored `(weight, number)` pairs are exactly (a permutation, re-ordered by
the sort, of) the original entries with each probability replaced by
`round(probability * (1 / min(probabilities)), precision)`, where the
precision is 3 decimals if `N < 1000`, 2 if `N < 100000`, and 1 otherwise. -/
theorem C5_normalized_weights :
    ∀ (entries : List Entry) (m : String) (b : DartBoard) (mn : ℚ),
      m ≠ "simple" → mkDartBoard entries m = .ok (.twoTier b) →
      listMin (entries.map Prod.snd) = .ok mn →
      (mn ∈ entries.map Prod.snd ∧ ∀ p ∈ entries.map Prod.snd, mn ≤ p) ∧
      (b.probabilities.zip b.numbers).Perm
        (((entries.map Prod.snd).map fun p =>
          roundTo (if entries.length < 1000 then 3
            else if entries.length < 100000 then 2 else 1) (p * (1 / mn))).zip
          (entries.map Prod.fst)) ∧
      (b.probabilities.zip b.numbers).Sorted pairLe := by
  intro entries m b mn hm hmk hmin
  obtain ⟨hci, sp, hnp, hnums, hprobs, hpop, htier, hwg, htab, htablen⟩ :=
    mkDartBoard_twoTier_inv hm hmk
  obtain ⟨mn', hmin', hz, hspdef⟩ := normalizeProbabilities_inv hnp
  rw [hmin] at hmin'
  injection hmin' with hmn
  subst hmn
  have hzip : b.probabilities.zip b.numbers = sp := by
    rw [hprobs, hnums, zip_map_fst_snd]
  rw [hzip, hspdef]
  refine ⟨listMin_spec hmin, ?_, sortPairs_sorted _⟩
  simp only [List.length_map, rounderOf]
  exact sortPairs_perm _

/-- Witness for C5 at the spec's concrete scenario 1. -/
theorem C5_normalized_weights_witness :
    ((1 : ℚ)/4 ∈ demoEntries.map Prod.snd ∧ ∀ p ∈ demoEntries.map Prod.snd, (1 : ℚ)/4 ≤ p) ∧
    (demoBoard.probabilities.zip demoBoard.numbers).Perm
      (((demoEntries.map Prod.snd).map fun p =>
        roundTo (if demoEntries.length < 1000 then 3
          else if demoEntries.length < 100000 then 2 else 1) (p * (1 / ((1 : ℚ)/4)))).zip
        (demoEntries.map Prod.fst)) ∧
    (demoBoard.probabilities.zip demoBoard.numbers).Sorted pairLe :=
  C5_normalized_weights demoEntries "two-tier" demoBoard (1/4) (by decide)
    demoEntries_eval (by norm_num [demoEntries, listMin, min_def])

/-- **C6.** For every two-tier construction with positive probabilities, the
weight groups partition the sorted `(weight, number)` sequence into contiguous
runs (in order, covering it exactly), every group is non-empty, group weights
are strictly ascending (so runs are maximal: one group per distinct rounded
weight), and `tier_one_size` is the number of groups. -/
theorem C6_weight_group_structure :
    ∀ (entries : List Entry) (m : String) (b : DartBoard),
      m ≠ "simple" → (∀ p ∈ entries.map Prod.snd, 0 < p) →
      mkDartBoard entries m = .ok (.twoTier b) →
      unfoldGroups b.weight_groups = b.probabilities.zip b.numbers ∧
      (b.probabilities.zip b.numbers).Sorted pairLe ∧
      (∀ g ∈ b.weight_groups, g.2 ≠ []) ∧
      ((b.weight_groups.map Prod.fst).Sorted (· < ·)) ∧
      b.tier_one_size = b.weight_groups.length := by
  intro entries m b hm hpos hmk
  obtain ⟨h1, h2, h3, h4, h5, _⟩ := twoTier_groups_spec hm hpos hmk
  exact ⟨h1, h2, fun g hg => (h3 g hg).2, h4, h5⟩

/-- Witness for C6 at the spec's concrete scenario 1. -/
theorem C6_weight_group_structure_witness :
    unfoldGroups demoBoard.weight_groups = demoBoard.probabilities.zip demoBoard.numbers ∧
    (demoBoard.probabilities.zip demoBoard.numbers).Sorted pairLe ∧
    (∀ g ∈ demoBoard.weight_groups, g.2 ≠ []) ∧
    ((demoBoard.weight_groups.map Prod.fst).Sorted (· < ·)) ∧
    demoBoard.tier_one_size = demoBoard.weight_groups.length :=
  C6_weight_group_structure demoEntries "two-tier" demoBoard (by decide)
    (by norm_num [demoEntries]) demoEntries_eval

theorem flatMap_congr_mem {α β : Type} (l : List α) (f f' : α → List β)
    (h : ∀ x ∈ l, f x = f' x) : l.flatMap f = l.flatMap f' := by
  induction l with
  | nil => rfl
  | cons x rest ih =>
    rw [List.flatMap_cons, List.flatMap_cons, h x (List.mem_cons_self _ _),
      ih fun y hy => h y (List.mem_cons.mpr (Or.inr hy))]

theorem listMin_const {l : List ℚ} {c : ℚ} (hne : l ≠ []) (hall : ∀ x ∈ l, x = c) :
    listMin l = .ok c := by
  match l, hne with
  | p :: rest, _ =>
    have hp : p = c := hall p (List.mem_cons_self _ _)
    subst hp
    rw [listMin, foldl_min_const rest p fun x hx => hall x (List.mem_cons.mpr (Or.inr hx))]

theorem mkDartBoard_cases (entries : List Entry) (m : String) (hm : m ≠ "simple") :
    (∃ b, mkDartBoard entries m = .ok (.twoTier b)) ∨
    (∃ e, mkDartBoard entries m = .error e ∧
      (checkInput (entries.map Prod.fst) (entries.map Prod.snd) = .error e ∨
       normalizeProbabilities (entries.map Prod.fst) (entries.map Prod.snd) = .error e)) := by
  unfold mkDartBoard
  rw [if_neg hm]
  cases hci : checkInput (entries.map Prod.fst) (entries.map Prod.snd) with
  | error e => exact Or.inr ⟨e, rfl, Or.inl rfl⟩
  | ok u =>
    obtain rfl : u = () := rfl
    cases hnp : normalizeProbabilities (entries.map Prod.fst) (entries.map Prod.snd) with
    | error e => exact Or.inr ⟨e, rfl, Or.inr rfl⟩
    | ok sp => exact Or.inl ⟨_, rfl⟩

/-- The spec's concrete scenario 5: 1000 entries, each with probability
`0.001`. -/
def uniformEntries1000 : List Entry :=
  (List.range 1000).map fun (i : ℕ) => ((i : ℤ), (1 : ℚ)/1000)

/-- **C4.** For every two-tier construction with positive probabilities, the
selection table consists, group by group in order, of exactly
`floor(weight * |values|)` consecutive copies of `(|values|, values)`, and the
recorded table length is the sum of those counts; in particular 1000 entries
of probability 0.001 give a tier-one group count of 1 and a table length equal
to the population size. -/
theorem C4_selection_table_structure :
    (∀ (entries : List Entry) (m : String) (b : DartBoard),
      m ≠ "simple" → (∀ p ∈ entries.map Prod.snd, 0 < p) →
      mkDartBoard entries m = .ok (.twoTier b) →
      b.selection_table = b.weight_groups.flatMap (fun g =>
        List.replicate (⌊g.1 * (g.2.length : ℚ)⌋).toNat (g.2.length, g.2)) ∧
      b.selection_table_len =
        (b.weight_groups.map fun g => (⌊g.1 * (g.2.length : ℚ)⌋).toNat).sum) ∧
    (∃ b : DartBoard, mkDartBoard uniformEntries1000 "two-tier" = .ok (.twoTier b) ∧
      b.tier_one_size = 1 ∧ b.selection_table_len = 1000) := by
  constructor
  · intro entries m b hm hpos hmk
    obtain ⟨hci, sp, hnp, hnums, hprobs, hpop, htier, hwg, htab, htablen⟩ :=
      mkDartBoard_twoTier_inv hm hmk
    obtain ⟨_, _, hg1, _, _, _⟩ := twoTier_groups_spec hm hpos hmk
    have hcong : ∀ g ∈ b.weight_groups,
        List.replicate (replicasOf g.1 g.2).toNat (g.2.length, g.2) =
        List.replicate (⌊g.1 * (g.2.length : ℚ)⌋).toNat (g.2.length, g.2) := by
      intro g hg
      rw [replicasOf, pyInt_eq_floor
        (mul_nonneg (le_trans zero_le_one (hg1 g hg).1) (Nat.cast_nonneg _))]
    constructor
    · rw [htab, ← hwg, createSelectionTable]
      exact flatMap_congr_mem _ _ _ hcong
    · rw [htablen, ← hwg, length_createSelectionTable]
      congr 1
      apply List.map_congr_left
      intro g hg
      rw [replicasOf, pyInt_eq_floor
        (mul_nonneg (le_trans zero_le_one (hg1 g hg).1) (Nat.cast_nonneg _))]
  · have hall : ∀ p ∈ uniformEntries1000.map Prod.snd, p = (1 : ℚ)/1000 := by
      intro p hp
      rw [uniformEntries1000, List.map_map, List.mem_map] at hp
      obtain ⟨i, _, hip⟩ := hp
      exact hip.symm
    have hck : checkInput (uniformEntries1000.map Prod.fst)
        (uniformEntries1000.map Prod.snd) = .ok () := by
      rw [checkInput_ok_iff]
      constructor
      · rw [uniformEntries1000, List.map_map]
        refine List.Nodup.map ?_ (List.nodup_range 1000)
        intro a b hab
        exact Nat.cast_injective hab
      · intro p hp
        rw [hall p hp]
        norm_num
    have hne : uniformEntries1000 ≠ [] := by
      intro hcon
      have hcl := congrArg List.length hcon
      rw [uniformEntries1000, List.length_map, List.length_range, List.length_nil] at hcl
      exact absurd hcl (by norm_num)
    have hmin : listMin (uniformEntries1000.map Prod.snd) = .ok ((1 : ℚ)/1000) := by
      apply listMin_const ?_ hall
      intro hcon
      exact hne (List.map_eq_nil_iff.mp hcon)
    have hnorm : ∃ sp, normalizeProbabilities (uniformEntries1000.map Prod.fst)
        (uniformEntries1000.map Prod.snd) = .ok sp := by
      unfold normalizeProbabilities
      rw [hmin]
      dsimp only
      rw [if_neg (by norm_num : ¬((1 : ℚ)/1000 = 0))]
      exact ⟨_, rfl⟩
    obtain ⟨sp, hsp⟩ := hnorm
    rcases mkDartBoard_cases uniformEntries1000 "two-tier" (by decide) with
      ⟨b, hmk⟩ | ⟨e, _, herr | herr⟩
    · refine ⟨b, hmk, ?_⟩
      have hu := twoTier_uniform (by decide : ("two-tier" : String) ≠ "simple")
        (by norm_num : (0 : ℚ) < 1/1000) hall hne hmk
      have hlen : uniformEntries1000.length = 1000 := by
        rw [uniformEntries1000, List.length_map, List.length_range]
      rw [hlen] at hu
      exact hu
    · rw [hck] at herr
      exact Except.noConfusion herr
    · rw [hsp] at herr
      exact Except.noConfusion herr

/-- Witness for the universal part of C4 at the spec's concrete scenario 1. -/
theorem C4_selection_table_structure_witness :
    demoBoard.selection_table = demoBoard.weight_groups.flatMap (fun g =>
      List.replicate (⌊g.1 * (g.2.length : ℚ)⌋).toNat (g.2.length, g.2)) ∧
    demoBoard.selection_table_len =
      (demoBoard.weight_groups.map fun g => (⌊g.1 * (g.2.length : ℚ)⌋).toNat).sum :=
  C4_selection_table_structure.1 demoEntries "two-tier" demoBoard (by decide)
    (by norm_num [demoEntries]) demoEntries_eval

/-- The two-tier engine state built from `[(1, -0.5), (2, -0.25)]` — a
population that passes `_checkInput` (no duplicates, no probability `≥ 1.0`)
yet normalizes the entry `2` into a weight group of weight `1/2`, whose
replica count `int(0.5 * 1)` is zero. -/
def c9Board : DartBoard :=
  { numbers := [2, 1], probabilities := [1/2, 1], population_size := 2,
    tier_one_size := 2, weight_groups := [(1/2, [2]), (1, [1])],
    selection_table := [(1, [1])], selection_table_len := 1 }

theorem c9Board_eval :
    mkDartBoard [((1 : ℤ), -(1 : ℚ)/2), (2, -(1 : ℚ)/4)] "two-tier" =
      .ok (.twoTier c9Board) := by
  have hs : ("two-tier" = "simple") = False := by decide
  norm_num [c9Board, mkDartBoard, hs, checkInput, dupScan, probScan, lookupPos,
    normalizeProbabilities, listMin, rounderOf, sortPairs, List.insertionSort,
    List.orderedInsert, pairLe, roundTo, roundHalfEven, createWeightGroups, wgLoop,
    createSelectionTable, replicasOf, pyInt, List.replicate_succ, min_def]

/-- **C9.** There is a population that passes validation for which a weight
group receives zero replicas in the selection table, leaving that group's
values permanently unreachable: no two-tier draw can ever return them. -/
theorem C9_zero_replica_unreachable :
    ∃ (entries : List Entry) (b : DartBoard),
      checkInput (entries.map Prod.fst) (entries.map Prod.snd) = .ok () ∧
      mkDartBoard entries "two-tier" = .ok (.twoTier b) ∧
      ∃ g ∈ b.weight_groups, replicasOf g.1 g.2 = 0 ∧ g.2 ≠ [] ∧
        ∀ v ∈ g.2, (∀ e ∈ b.selection_table, v ∉ e.2) ∧
          ∀ (s : RngState) (w : ℤ) (s' : RngState),
            getNumberTwoTier b s = .ok (w, s') → w ≠ v := by
  refine ⟨[((1 : ℤ), -(1 : ℚ)/2), (2, -(1 : ℚ)/4)], c9Board, ?_, c9Board_eval,
    ((1 : ℚ)/2, [2]), List.mem_cons_self _ _, ?_, by decide, ?_⟩
  · norm_num [checkInput, dupScan, probScan, lookupPos]
  · rw [replicasOf, pyInt]
    norm_num
  · intro v hv
    rw [List.mem_singleton] at hv
    subst hv
    constructor
    · decide
    · intro s w s' hdraw
      obtain ⟨e, he, hw⟩ := getNumberTwoTier_mem hdraw
      have he' : e = (1, [1]) := by
        have : e ∈ [((1 : ℕ), [(1 : ℤ)])] := he
        rw [List.mem_singleton] at this
        exact this
      rw [he'] at hw
      rw [List.mem_singleton] at hw
      subst hw
      decide

/-- The two-tier engine state built from `[(5, -0.5), (6, -0.25)]`. -/
def c10Board : DartBoard :=
  { numbers := [6, 5], probabilities := [1/2, 1], population_size := 2,
    tier_one_size := 2, weight_groups := [(1/2, [6]), (1, [5])],
    selection_table := [(1, [5])], selection_table_len := 1 }

/-- **C10 (counterexample).** A non-empty population that passes two-tier
validation but whose probabilities are negative: the normalized weight of one
group is `1/2 < 1` and its replica count is zero — refuting "every rounded
normalized weight is at least 1.0, so each group contributes at least one
replica". -/
theorem C10_counterexample :
    ([((5 : ℤ), -(1 : ℚ)/2), (6, -(1 : ℚ)/4)] : List Entry) ≠ [] ∧
    checkInput (([((5 : ℤ), -(1 : ℚ)/2), (6, -(1 : ℚ)/4)] : List Entry).map Prod.fst)
      (([((5 : ℤ), -(1 : ℚ)/2), (6, -(1 : ℚ)/4)] : List Entry).map Prod.snd) = .ok () ∧
    ∃ b : DartBoard,
      mkDartBoard [((5 : ℤ), -(1 : ℚ)/2), (6, -(1 : ℚ)/4)] "two-tier" = .ok (.twoTier b) ∧
      ∃ g ∈ b.weight_groups, g.1 < 1 ∧ replicasOf g.1 g.2 = 0 := by
  have hs : ("two-tier" = "simple") = False := by decide
  refine ⟨by simp, ?_, ?_⟩
  · norm_num [checkInput, dupScan, probScan, lookupPos]
  · refine ⟨c10Board, ?_, ((1 : ℚ)/2, [6]), List.mem_cons_self _ _, by norm_num, ?_⟩
    · norm_num [c10Board, mkDartBoard, hs, checkInput, dupScan, probScan, lookupPos,
        normalizeProbabilities, listMin, rounderOf, sortPairs, List.insertionSort,
        List.orderedInsert, pairLe, roundTo, roundHalfEven, createWeightGroups, wgLoop,
        createSelectionTable, replicasOf, pyInt, List.replicate_succ, min_def]
    · rw [replicasOf, pyInt]
      norm_num

/-- **C10 (amended).** For every non-empty population with positive
probabilities that passes two-tier validation: every rounded normalized group
weight is at least 1, every group contributes at least one replica, the
selection table is non-empty, every table entry carries a group size of at
least 1, and the two-tier draw always succeeds (both `randrange` arguments
are positive and every index is in bounds). -/
theorem C10_two_tier_draw_total :
    ∀ (entries : List Entry) (m : String) (b : DartBoard),
      m ≠ "simple" → entries ≠ [] → (∀ p ∈ entries.map Prod.snd, 0 < p) →
      mkDartBoard entries m = .ok (.twoTier b) →
      (∀ g ∈ b.weight_groups, 1 ≤ g.1 ∧ 1 ≤ replicasOf g.1 g.2) ∧
      b.selection_table ≠ [] ∧
      (∀ e ∈ b.selection_table, 1 ≤ e.1 ∧ e.2 ≠ []) ∧
      0 < b.selection_table_len ∧
      (∀ s : RngState, ∃ v s', getNumberTwoTier b s = .ok (v, s')) := by
  intro entries m b hm hne hpos hmk
  obtain ⟨hci, sp, hnp, hnums, hprobs, hpop, htier, hwg, htab, htablen⟩ :=
    mkDartBoard_twoTier_inv hm hmk
  obtain ⟨_, _, hg1, _, _, hgne⟩ := twoTier_groups_spec hm hpos hmk
  have hrep : ∀ g ∈ b.weight_groups, 1 ≤ replicasOf g.1 g.2 :=
    fun g hg => replicasOf_ge_one (hg1 g hg).1 (hg1 g hg).2
  have hgroupsne : b.weight_groups ≠ [] := hgne hne
  have htabne : b.selection_table ≠ [] := by
    rw [htab, ← hwg]
    exact createSelectionTable_ne_nil hgroupsne hrep
  have hent : ∀ e ∈ b.selection_table, e.1 = e.2.length ∧ e.2 ≠ [] := by
    intro e he
    rw [htab, ← hwg, mem_createSelectionTable] at he
    obtain ⟨g, hg, hge, _⟩ := he
    rw [hge]
    exact ⟨rfl, (hg1 g hg).2⟩
  have hlen : b.selection_table_len = b.selection_table.length := by
    rw [htablen, htab]
  refine ⟨fun g hg => ⟨(hg1 g hg).1, hrep g hg⟩, htabne, ?_, ?_, ?_⟩
  · intro e he
    obtain ⟨h1, h2⟩ := hent e he
    refine ⟨?_, h2⟩
    rw [h1]
    exact Nat.one_le_iff_ne_zero.mpr fun hc => h2 (List.length_eq_zero.mp hc)
  · rw [hlen]
    exact List.length_pos.mpr htabne
  · exact getNumberTwoTier_total hlen htabne hent

/-- Witness for the amended C10 at the spec's concrete scenario 1. -/
theorem C10_two_tier_draw_total_witness :
    (∀ g ∈ demoBoard.weight_groups, 1 ≤ g.1 ∧ 1 ≤ replicasOf g.1 g.2) ∧
    demoBoard.selection_table ≠ [] ∧
    (∀ e ∈ demoBoard.selection_table, 1 ≤ e.1 ∧ e.2 ≠ []) ∧
    0 < demoBoard.selection_table_len ∧
    (∀ s : RngState, ∃ v s', getNumberTwoTier demoBoard s = .ok (v, s')) :=
  C10_two_tier_draw_total demoEntries "two-tier" demoBoard (by decide)
    (by decide) (by norm_num [demoEntries]) demoEntries_eval
